import Mathlib

/-!
Shallow embedding of the wallet-test-app signing core.

Sources embedded here:
* `android/.../wallet/TransactionSigner.kt` — `validateAmount`,
  `validateAndSaveNonce`, `createCanonicalTransactionData`, `signTransaction`,
  `getLastNonce`, `getNextNonce`.
* `android/.../wallet/WalletKeyManager.kt` — `keyExists`, `getPrivateKeyEntry`.
* The React-Native bridge `WalletModule.signTransaction` (unnamed source file).

Strings are modelled as `List Char` (Unicode scalar values); Kotlin's UTF-16
`String.length` is modelled by `utf16Len`.  Kotlin `Long` values are modelled
as `Int`; the only arithmetic the source performs on them is `lastNonce + 1`
in `getNextNonce`, which is modelled with explicit two's-complement wrap-around
(`wrap64`).  The actual ECDSA signature bytes and their base64 encoding are
abstracted: a successful `signTransaction` returns the canonical payload byte
string that the source hands to the signing primitive, since no claim inspects
the cryptographic bytes themselves.
-/

deriving instance DecidableEq for Except

namespace Wallet

/-! ### Character classes used by the Java floating point literal grammar -/

/-- Characters `\x00`–`\x20`, the padding accepted by Java's `fpRegex`. -/
def isJavaWs (c : Char) : Bool := c.toNat ≤ 32

/-- ASCII decimal digit `0`–`9` (`\p{Digit}` without `UNICODE_CHARACTER_CLASS`). -/
def isAsciiDigit (c : Char) : Bool := 48 ≤ c.toNat && c.toNat ≤ 57

/-- ASCII hexadecimal digit (`\p{XDigit}`). -/
def isHexDigitChar (c : Char) : Bool :=
  isAsciiDigit c || (97 ≤ c.toNat && c.toNat ≤ 102) || (65 ≤ c.toNat && c.toNat ≤ 70)

/-- The optional float-literal type suffix `[fFdD]`. -/
def isSuffixChar (c : Char) : Bool := c = 'f' || c = 'F' || c = 'd' || c = 'D'

def digitVal (c : Char) : Nat := c.toNat - 48

def hexDigitVal (c : Char) : Nat :=
  if isAsciiDigit c then c.toNat - 48
  else if 97 ≤ c.toNat then c.toNat - 87
  else c.toNat - 55

/-- Base-10 value of a digit string (most significant digit first). -/
def decodeDigits (ds : List Char) : Nat := ds.foldl (fun a c => 10 * a + digitVal c) 0

/-- Base-16 value of a hex digit string. -/
def decodeHexDigits (ds : List Char) : Nat := ds.foldl (fun a c => 16 * a + hexDigitVal c) 0

/-! ### Model of Kotlin `String.toDoubleOrNull`

Kotlin's `toDoubleOrNull` screens the string against the JDK `fpRegex`
(whole-string match) and then calls `Double.parseDouble`.  The accepted
language is
`[\x00-\x20]* [+-]? ( NaN | Infinity | DecForm [fFdD]? | HexForm [fFdD]? ) [\x00-\x20]*`
with `DecForm = Digits '.'? Digits? Exp? | '.' Digits Exp?`,
`Exp = [eE][+-]?Digits`, and
`HexForm = 0[xX] (HexDigits '.'? | HexDigits? '.' HexDigits) [pP][+-]?Digits`.
The parser below recognises exactly this language; instead of an IEEE-754
double it records the exact value of the literal (sign, integer mantissa and a
power-of-10 or power-of-2 exponent), which determines every comparison the
Kotlin source performs on the parsed value. -/

/-- Result of parsing a Java floating point literal.  `dec neg m e` denotes the
exact value `± m * 10^e`; `hex neg m e` denotes `± m * 2^e`. -/
inductive ParsedDouble where
  | nan : ParsedDouble
  | inf (positive : Bool) : ParsedDouble
  | dec (neg : Bool) (mantissa : Nat) (exp10 : Int) : ParsedDouble
  | hex (neg : Bool) (mantissa : Nat) (exp2 : Int) : ParsedDouble
deriving DecidableEq

/-- Consume an optional leading `+`/`-`; `true` means negative. -/
def parseSign : List Char → Bool × List Char
  | [] => (false, [])
  | c :: r =>
    if c = '-' then (true, r)
    else if c = '+' then (false, r)
    else (false, c :: r)

/-- Match a literal character sequence, returning the rest of the input. -/
def matchLit : List Char → List Char → Option (List Char)
  | [], s => some s
  | _ :: _, [] => none
  | l :: ls, c :: cs => if c = l then matchLit ls cs else none

/-- Parse `[+-]?Digits` as an integer (used for `e`/`p` exponents). -/
def parseSignedInt (s : List Char) : Option (Int × List Char) :=
  let (neg, r) := parseSign s
  let ds := r.takeWhile isAsciiDigit
  if ds.isEmpty then none
  else some (if neg then -(decodeDigits ds : Int) else (decodeDigits ds : Int),
             r.dropWhile isAsciiDigit)

/-- Parse the optional decimal exponent `([eE][+-]?Digits)?`.  When the next
character is `e`/`E` the exponent is mandatory (nothing else can consume the
`e`, so this is equivalent to the regex). -/
def expOpt : List Char → Option (Int × List Char)
  | [] => some (0, [])
  | c :: r =>
    if c = 'e' || c = 'E' then parseSignedInt r
    else some (0, c :: r)

/-- Unsigned numeric body of a literal: mantissa and exponent, plus whether the
exponent is a power of 10 (decimal form) or of 2 (hex form). -/
inductive NumBody where
  | dec (mantissa : Nat) (exp10 : Int) : NumBody
  | hex (mantissa : Nat) (exp2 : Int) : NumBody
deriving DecidableEq

/-- Parse `Digits '.'? Digits? Exp? | '.' Digits Exp?`. -/
def parseDecBody (s : List Char) : Option (NumBody × List Char) :=
  let d1 := s.takeWhile isAsciiDigit
  let r1 := s.dropWhile isAsciiDigit
  match r1 with
  | c :: r2 =>
    if c = '.' then
      let d2 := r2.takeWhile isAsciiDigit
      let r3 := r2.dropWhile isAsciiDigit
      if d1.isEmpty && d2.isEmpty then none
      else (expOpt r3).map fun p =>
        (NumBody.dec (decodeDigits (d1 ++ d2)) (p.1 - (d2.length : Int)), p.2)
    else
      if d1.isEmpty then none
      else (expOpt r1).map fun p => (NumBody.dec (decodeDigits d1) p.1, p.2)
  | [] =>
    if d1.isEmpty then none
    else (expOpt r1).map fun p => (NumBody.dec (decodeDigits d1) p.1, p.2)

/-- Parse the mandatory binary exponent `[pP][+-]?Digits` of a hex literal. -/
def parseBinExp (s : List Char) (m : Nat) (shift : Nat) : Option (NumBody × List Char) :=
  match s with
  | [] => none
  | c :: r =>
    if c = 'p' || c = 'P' then
      (parseSignedInt r).map fun p => (NumBody.hex m (p.1 - (shift : Int)), p.2)
    else none

/-- Parse `HexDigits '.'? | HexDigits? '.' HexDigits` followed by the binary
exponent (the leading `0x`/`0X` has already been consumed). -/
def parseHexBody (s : List Char) : Option (NumBody × List Char) :=
  let h1 := s.takeWhile isHexDigitChar
  let r1 := s.dropWhile isHexDigitChar
  match r1 with
  | c :: r2 =>
    if c = '.' then
      let h2 := r2.takeWhile isHexDigitChar
      let r3 := r2.dropWhile isHexDigitChar
      if h1.isEmpty && h2.isEmpty then none
      else parseBinExp r3 (decodeHexDigits (h1 ++ h2)) (4 * h2.length)
    else
      if h1.isEmpty then none
      else parseBinExp r1 (decodeHexDigits h1) 0
  | [] =>
    if h1.isEmpty then none
    else parseBinExp r1 (decodeHexDigits h1) 0

/-- Parse the numeric body, dispatching on the `0x`/`0X` prefix marker. -/
def parseNumBody (s : List Char) : Option (NumBody × List Char) :=
  match s with
  | c0 :: c1 :: r =>
    if c0 = '0' && (c1 = 'x' || c1 = 'X') then parseHexBody r else parseDecBody s
  | _ => parseDecBody s

/-- Consume an optional `[fFdD]` suffix. -/
def suffixOpt : List Char → List Char
  | [] => []
  | c :: r => if isSuffixChar c then r else c :: r

def nanLit : List Char := ['N', 'a', 'N']

def infinityLit : List Char := ['I', 'n', 'f', 'i', 'n', 'i', 't', 'y']

/-- Model of Kotlin `String.toDoubleOrNull`: `none` when the string is not a
valid Java floating point literal, otherwise the exact parsed value. -/
def toDoubleOrNull (s : List Char) : Option ParsedDouble :=
  let s1 := s.dropWhile isJavaWs
  let sr := parseSign s1
  match matchLit nanLit sr.2 with
  | some r => if r.all isJavaWs then some ParsedDouble.nan else none
  | none =>
  match matchLit infinityLit sr.2 with
  | some r => if r.all isJavaWs then some (ParsedDouble.inf (!sr.1)) else none
  | none =>
  match parseNumBody sr.2 with
  | none => none
  | some (body, r) =>
    if (suffixOpt r).all isJavaWs then
      match body with
      | NumBody.dec m e => some (ParsedDouble.dec sr.1 m e)
      | NumBody.hex m e => some (ParsedDouble.hex sr.1 m e)
    else none

/-- The numeral `2 ^ 1075`, written out so that concrete evaluation never has
to unfold a large exponentiation. -/
def twoPow1075 : Nat := 404804506614621236704990693437834614099113299528284236713802716054860679135990693783920767402874248990374155728633623822779617474771586953734026799881477019843034848553132722728933815484186432682479535356945490137124014966849385397236206711298319112681620113024717539104666829230461005064372655017292012526615415482186989568


/-- Whether `Double.parseDouble` of the literal yields a double `≤ 0`
(the comparison performed by `validateAmount`).  `NaN ≤ 0` is false in IEEE
arithmetic.  A finite-format literal of exact value `q` rounds (to nearest,
ties to even) to a double `≤ 0` exactly when `q ≤ 2 ^ (-1075)`: every value in
`[0, 2^(-1075)]` rounds to `±0.0` (the tie at half the smallest subnormal goes
to the even mantissa, zero) and every value above it rounds to a positive
double (possibly `+∞`). -/
def doubleLeZero : ParsedDouble → Bool
  | ParsedDouble.nan => false
  | ParsedDouble.inf positive => !positive
  | ParsedDouble.dec neg m e =>
    if neg then true
    else if 0 ≤ e then decide (m = 0)
    else decide (m * twoPow1075 ≤ 10 ^ (-e).toNat)
  | ParsedDouble.hex neg m e =>
    if neg then true
    else if 0 ≤ e then decide (m = 0)
    else decide (m * twoPow1075 ≤ 2 ^ (-e).toNat)

/-- Whether the exact value of the parsed literal is `≤ 0` (or `-∞`).
This is the mathematical notion used in theorem statements; it implies
`doubleLeZero`. -/
def parsesNonPositive : ParsedDouble → Bool
  | ParsedDouble.nan => false
  | ParsedDouble.inf positive => !positive
  | ParsedDouble.dec neg m _ => neg || decide (m = 0)
  | ParsedDouble.hex neg m _ => neg || decide (m = 0)

/-! ### Kotlin string measurements -/

/-- UTF-16 width of one Unicode scalar (astral characters take two Kotlin
`Char`s). -/
def utf16Width (c : Char) : Nat := if 65536 ≤ c.toNat then 2 else 1

/-- Kotlin `String.length` (UTF-16 code units). -/
def utf16Len (s : List Char) : Nat := (s.map utf16Width).sum

/-- Characters strictly after the first `'.'`, if any: models
`amount.indexOf('.')` together with the suffix-length computation
`amount.length - decimalIndex - 1` in `validateAmount`. -/
def fracPart : List Char → Option (List Char)
  | [] => none
  | c :: r => if c = '.' then some r else fracPart r

/-! ### Errors

One constructor per distinct `WalletException` / `IllegalArgumentException`
thrown by the embedded sources. -/

inductive WalletError where
  /-- "Amount cannot be empty" -/
  | amountEmpty : WalletError
  /-- "Amount exceeds maximum length" -/
  | amountTooLong : WalletError
  /-- "Invalid amount format" -/
  | invalidAmountFormat : WalletError
  /-- "Amount must be positive" -/
  | amountNotPositive : WalletError
  /-- "Amount cannot have more than 18 decimal places" -/
  | tooManyDecimalPlaces : WalletError
  /-- "Invalid nonce: $nonce. Must be greater than last used nonce: $lastNonce" -/
  | nonceTooLow (rejected : Int) (lastAccepted : Int) : WalletError
  /-- "Key pair does not exist. Generate it first." -/
  | keyNotFound : WalletError
  /-- "Failed to access private key" (storage query raised) -/
  | keyAccessFailed : WalletError
  /-- Bridge: "Transaction must have 'amount' field" -/
  | missingAmountField : WalletError
  /-- Bridge: "Transaction must have 'currency' field" -/
  | missingCurrencyField : WalletError
  /-- Bridge: "Invalid nonce value" -/
  | invalidNonceValue : WalletError
  /-- Bridge: "Amount cannot be empty" -/
  | emptyAmountInput : WalletError
  /-- Bridge: "Currency cannot be empty" -/
  | emptyCurrencyInput : WalletError
deriving DecidableEq

/-- The spec's `InvalidTransactionError` family: malformed-input failures, as
opposed to nonce-ledger and key-custodian failures. -/
def isInvalidTransactionError : WalletError → Bool
  | WalletError.nonceTooLow _ _ => false
  | WalletError.keyNotFound => false
  | WalletError.keyAccessFailed => false
  | _ => true

/-! ### Key custodian (`WalletKeyManager`) -/

/-- Observable state of the Android `KeyStore` backing `WalletKeyManager`:
the managed alias is present, absent, or the store raises on queries. -/
inductive KeyStoreState where
  | present : KeyStoreState
  | absent : KeyStoreState
  | erroring : KeyStoreState
deriving DecidableEq

/-- `keyStore.containsAlias(KEY_ALIAS)`, which may throw. -/
def containsAlias : KeyStoreState → Except Unit Bool
  | KeyStoreState.present => Except.ok true
  | KeyStoreState.absent => Except.ok false
  | KeyStoreState.erroring => Except.error ()

/-- `WalletKeyManager.keyExists`: `try { containsAlias } catch { false }`. -/
def keyExists (ks : KeyStoreState) : Bool :=
  match containsAlias ks with
  | Except.ok b => b
  | Except.error _ => false

/-- `WalletKeyManager.getPrivateKeyEntry`: throws `keyNotFound` when the alias
is absent, and a generic access failure when the storage query itself raises.
The private key entry carries no information the claims inspect, so success is
`Unit`. -/
def getPrivateKeyEntry (ks : KeyStoreState) : Except WalletError Unit :=
  match containsAlias ks with
  | Except.error _ => Except.error WalletError.keyAccessFailed
  | Except.ok false => Except.error WalletError.keyNotFound
  | Except.ok true => Except.ok ()

/-! ### Transaction signer (`TransactionSigner`) -/

/-- A structurally complete transaction: the three JSON fields after
`getString`/`getString`/`getLong` extraction in `signTransaction`. -/
structure Transaction where
  amount : List Char
  currency : List Char
  nonce : Int
deriving DecidableEq

/-- Mutable state owned by the signer: the persisted `last_used_nonce`
preference (read with default `-1`, collapsed here to the `Int` it denotes)
and the key store consulted through `WalletKeyManager`. -/
structure SignerState where
  lastAcceptedNonce : Int
  keyStore : KeyStoreState
deriving DecidableEq

/-- `TransactionSigner.validateAmount`. -/
def validateAmount (amount : List Char) : Except WalletError Unit :=
  if amount.isEmpty then Except.error WalletError.amountEmpty
  else if 50 < utf16Len amount then Except.error WalletError.amountTooLong
  else
    match toDoubleOrNull amount with
    | none => Except.error WalletError.invalidAmountFormat
    | some d =>
      if doubleLeZero d then Except.error WalletError.amountNotPositive
      else
        match fracPart amount with
        | some rest =>
          if 18 < utf16Len rest then Except.error WalletError.tooManyDecimalPlaces
          else Except.ok ()
        | none => Except.ok ()

/-- `TransactionSigner.validateAndSaveNonce`, as a transformer of the persisted
ledger value: the pair is (thrown error or success, ledger value afterwards).
On failure the source throws before writing, so the ledger is unchanged; on
success it durably stores the candidate. -/
def validateAndSaveNonce (nonce : Int) (lastNonce : Int) : Except WalletError Unit × Int :=
  if nonce ≤ lastNonce then
    (Except.error (WalletError.nonceTooLow nonce lastNonce), lastNonce)
  else
    (Except.ok (), nonce)

/-- Base-10 digits of a natural number, most significant first.  The `fuel`
argument makes the recursion structural; `fuel > n` suffices. -/
def natDigitsAux : Nat → Nat → List Char
  | 0, _ => []
  | fuel + 1, n =>
    if n < 10 then [Char.ofNat (48 + n)]
    else natDigitsAux fuel (n / 10) ++ [Char.ofNat (48 + n % 10)]

def natDigits (n : Nat) : List Char := natDigitsAux (n + 1) n

/-- Kotlin `Long.toString` (as used by the `"$nonce"` template): base-10,
`'-'`-prefixed when negative. -/
def longToString (n : Int) : List Char :=
  if n < 0 then '-' :: natDigits (-n).toNat else natDigits n.toNat

/-- `TransactionSigner.createCanonicalTransactionData`:
the Kotlin template `"$amount|$currency|$nonce"`. -/
def createCanonicalTransactionData (amount currency : List Char) (nonce : Int) : List Char :=
  amount ++ '|' :: (currency ++ '|' :: longToString nonce)

/-- UTF-8 bytes of one Unicode scalar. -/
def utf8Bytes (c : Char) : List Nat :=
  let n := c.toNat
  if n < 128 then [n]
  else if n < 2048 then [192 + n / 64, 128 + n % 64]
  else if n < 65536 then [224 + n / 4096, 128 + n / 64 % 64, 128 + n % 64]
  else [240 + n / 262144, 128 + n / 4096 % 64, 128 + n / 64 % 64, 128 + n % 64]

/-- UTF-8 encoding of a string, modelling `String.toByteArray(Charsets.UTF_8)`. -/
def utf8Encode (s : List Char) : List Nat := (s.map utf8Bytes).flatten

/-- `TransactionSigner.signTransaction`, after JSON-field extraction:
validate the amount, atomically check-and-commit the nonce, canonicalize,
fetch the private key entry, sign.  Returns the canonical payload presented to
the signing primitive (the signature bytes themselves are abstracted) together
with the state after the call. -/
def signTransaction (st : SignerState) (tx : Transaction) :
    Except WalletError (List Char) × SignerState :=
  match validateAmount tx.amount with
  | Except.error e => (Except.error e, st)
  | Except.ok _ =>
    match validateAndSaveNonce tx.nonce st.lastAcceptedNonce with
    | (Except.error e, _) => (Except.error e, st)
    | (Except.ok _, newNonce) =>
      let st2 := SignerState.mk newNonce st.keyStore
      match getPrivateKeyEntry st2.keyStore with
      | Except.error e => (Except.error e, st2)
      | Except.ok _ =>
        (Except.ok (createCanonicalTransactionData tx.amount tx.currency tx.nonce), st2)

/-- Two's-complement wrap-around of Kotlin `Long` arithmetic. -/
def wrap64 (x : Int) : Int := (x + 2 ^ 63) % 2 ^ 64 - 2 ^ 63

/-- `TransactionSigner.getLastNonce`. -/
def getLastNonce (st : SignerState) : Int := st.lastAcceptedNonce

/-- `TransactionSigner.getNextNonce`: `getLastNonce() + 1` on a Kotlin `Long`,
hence with 64-bit wrap-around. -/
def getNextNonce (st : SignerState) : Int := wrap64 (getLastNonce st + 1)

/-! ### Sequences of ledger operations -/

/-- Ledger value after a sequence of sequential `validateAndSaveNonce` calls. -/
def runLedger : Int → List Int → Int
  | lastNonce, [] => lastNonce
  | lastNonce, n :: ns => runLedger (validateAndSaveNonce n lastNonce).2 ns

/-- The sublist of candidates accepted along a sequence of sequential
`validateAndSaveNonce` calls. -/
def acceptedOf : Int → List Int → List Int
  | _, [] => []
  | lastNonce, n :: ns =>
    match validateAndSaveNonce n lastNonce with
    | (Except.ok _, newNonce) => n :: acceptedOf newNonce ns
    | (Except.error _, _) => acceptedOf lastNonce ns

/-! ### React-Native bridge (`WalletModule.signTransaction`) -/

/-- A JavaScript number as delivered by `ReadableMap.getDouble`: either `NaN`
or an exact (finite) value.  Infinities do not arise from the React-Native
bridge for the nonce field in the claims considered, and the source guard only
distinguishes `NaN` and sign, so finite values are kept exact. -/
inductive JsNumber where
  | nan : JsNumber
  | num (q : ℚ) : JsNumber

/-- Kotlin `Double.toLong`: truncation toward zero, saturating at the `Long`
bounds. -/
def jsToLong (q : ℚ) : Int :=
  let t : Int := Int.tdiv q.num (q.den : Int)
  if t < -(2 ^ 63) then -(2 ^ 63)
  else if 2 ^ 63 - 1 < t then 2 ^ 63 - 1
  else t

/-- `WalletModule.signTransaction`: null checks for `amount`/`currency`,
`NaN`/negative guard on the nonce double, emptiness checks, then the core
`TransactionSigner.signTransaction` on the rebuilt transaction. -/
def moduleSignTransaction (st : SignerState) (amount currency : Option (List Char))
    (nonce : JsNumber) : Except WalletError (List Char) × SignerState :=
  match amount with
  | none => (Except.error WalletError.missingAmountField, st)
  | some a =>
    match currency with
    | none => (Except.error WalletError.missingCurrencyField, st)
    | some c =>
      match nonce with
      | JsNumber.nan => (Except.error WalletError.invalidNonceValue, st)
      | JsNumber.num q =>
        if q < 0 then (Except.error WalletError.invalidNonceValue, st)
        else if a.isEmpty then (Except.error WalletError.emptyAmountInput, st)
        else if c.isEmpty then (Except.error WalletError.emptyCurrencyInput, st)
        else signTransaction st (Transaction.mk a c (jsToLong q))

/-- Absence of the canonical delimiter `'|'` from a string. -/
abbrev noPipe (s : List Char) : Prop := ∀ c ∈ s, c ≠ '|'

end Wallet


namespace Wallet

/-! ### Nonce ledger lemmas -/

/-- Sanity check that `twoPow1075` is the numeral it claims to be. -/
theorem twoPow1075_eq : twoPow1075 = 2 ^ 1075 := by unfold twoPow1075; norm_num

theorem validateAndSaveNonce_accept {n last : Int} (h : last < n) :
    validateAndSaveNonce n last = (Except.ok (), n) := by
  unfold validateAndSaveNonce
  rw [if_neg (by omega)]

theorem validateAndSaveNonce_reject {n last : Int} (h : n ≤ last) :
    validateAndSaveNonce n last = (Except.error (WalletError.nonceTooLow n last), last) := by
  unfold validateAndSaveNonce
  rw [if_pos h]

theorem validateAndSaveNonce_snd_ge (n last : Int) : last ≤ (validateAndSaveNonce n last).2 := by
  by_cases h : n ≤ last
  · rw [validateAndSaveNonce_reject h]
  · rw [validateAndSaveNonce_accept (by omega)]
    exact le_of_lt (by omega)

theorem runLedger_nil (L : Int) : runLedger L [] = L := rfl

theorem runLedger_cons (L n : Int) (ns : List Int) :
    runLedger L (n :: ns) = runLedger (validateAndSaveNonce n L).2 ns := rfl

theorem runLedger_ge : ∀ (ns : List Int) (L : Int), L ≤ runLedger L ns
  | [], L => le_refl L
  | n :: ns, L => le_trans (validateAndSaveNonce_snd_ge n L) (runLedger_ge ns _)

theorem runLedger_le : ∀ (ns : List Int) (L B : Int),
    L ≤ B → (∀ n ∈ ns, n ≤ B) → runLedger L ns ≤ B
  | [], _, _, hL, _ => hL
  | n :: ns, L, B, hL, hns => by
    rw [runLedger_cons]
    refine runLedger_le ns _ B ?_ (fun m hm => hns m (List.mem_cons_of_mem _ hm))
    have hn : n ≤ B := hns n (List.mem_cons_self n ns)
    by_cases h : n ≤ L
    · rw [validateAndSaveNonce_reject h]
      exact hL
    · rw [validateAndSaveNonce_accept (by omega)]
      exact hn

theorem acceptedOf_nil (L : Int) : acceptedOf L [] = [] := rfl

theorem acceptedOf_cons_accept {L n : Int} (ns : List Int) (h : L < n) :
    acceptedOf L (n :: ns) = n :: acceptedOf n ns := by
  simp only [acceptedOf, validateAndSaveNonce_accept h]

theorem acceptedOf_cons_reject {L n : Int} (ns : List Int) (h : n ≤ L) :
    acceptedOf L (n :: ns) = acceptedOf L ns := by
  simp only [acceptedOf, validateAndSaveNonce_reject h]

theorem acceptedOf_gt : ∀ (ns : List Int) (L n : Int), n ∈ acceptedOf L ns → L < n
  | [], _, n, h => absurd h (List.not_mem_nil n)
  | m :: ns, L, n, h => by
    by_cases hm : L < m
    · rw [acceptedOf_cons_accept ns hm] at h
      rcases List.mem_cons.mp h with h1 | h2
      · subst h1; exact hm
      · have := acceptedOf_gt ns m n h2
        omega
    · rw [acceptedOf_cons_reject ns (by omega)] at h
      exact acceptedOf_gt ns L n h

theorem runLedger_eq_max : ∀ (ns : List Int) (L : Int),
    runLedger L ns = (acceptedOf L ns).foldl max L
  | [], _ => rfl
  | n :: ns, L => by
    by_cases h : L < n
    · rw [runLedger_cons, acceptedOf_cons_accept ns h, validateAndSaveNonce_accept h,
        List.foldl_cons, max_eq_right (le_of_lt h)]
      exact runLedger_eq_max ns n
    · rw [runLedger_cons, acceptedOf_cons_reject ns (by omega),
        validateAndSaveNonce_reject (by omega)]
      exact runLedger_eq_max ns L

theorem runLedger_take_succ : ∀ (ns : List Int) (L : Int) (i : Nat) (h : i < ns.length),
    runLedger L (ns.take (i + 1)) =
      (validateAndSaveNonce (ns.get ⟨i, h⟩) (runLedger L (ns.take i))).2
  | [], _, i, h => absurd h (by simp)
  | n :: ns, L, 0, _ => by simp [runLedger]
  | n :: ns, L, i + 1, h => by
    have h2 : i < ns.length := Nat.lt_of_succ_lt_succ h
    simp only [List.take_succ_cons, runLedger_cons, List.get_cons_succ]
    exact runLedger_take_succ ns _ i h2

/-- C1: For every initial ledger value `L` and every finite sequence of
sequential `validateAndSaveNonce` calls with candidates `ns`, exactly those
calls succeed whose candidate is strictly greater than the ledger value
current at the time of the call; a failing call returns `NonceTooLowError`
carrying both the rejected and the last-accepted value and leaves the ledger
unchanged, a succeeding call sets the ledger to its candidate; and the final
ledger value equals the maximum of `L` and all accepted candidates. -/
theorem checkAndCommit_sequence_spec (L : Int) (ns : List Int) (i : Nat) (h : i < ns.length) :
    (runLedger L (ns.take i) < ns.get ⟨i, h⟩ →
      (validateAndSaveNonce (ns.get ⟨i, h⟩) (runLedger L (ns.take i))).1 = Except.ok () ∧
      runLedger L (ns.take (i + 1)) = ns.get ⟨i, h⟩) ∧
    (ns.get ⟨i, h⟩ ≤ runLedger L (ns.take i) →
      (validateAndSaveNonce (ns.get ⟨i, h⟩) (runLedger L (ns.take i))).1 =
        Except.error (WalletError.nonceTooLow (ns.get ⟨i, h⟩) (runLedger L (ns.take i))) ∧
      runLedger L (ns.take (i + 1)) = runLedger L (ns.take i)) ∧
    runLedger L ns = (acceptedOf L ns).foldl max L := by
  refine ⟨fun hlt => ?_, fun hle => ?_, runLedger_eq_max ns L⟩
  · rw [runLedger_take_succ ns L i h, validateAndSaveNonce_accept hlt]
    exact ⟨rfl, rfl⟩
  · rw [runLedger_take_succ ns L i h, validateAndSaveNonce_reject hle]
    exact ⟨rfl, rfl⟩

/-- Witness for C1 at `L = -1`, candidates `[5, 3]`, call index 1: the second
call (candidate 3, ledger 5) is rejected with both values reported, the ledger
stays 5, and the final ledger is the maximum of the accepted candidates. -/
theorem checkAndCommit_sequence_spec_witness :
    (validateAndSaveNonce (([5, 3] : List Int).get ⟨1, by decide⟩)
        (runLedger (-1) (([5, 3] : List Int).take 1))).1 =
      Except.error (WalletError.nonceTooLow 3 5) ∧
    runLedger (-1) (([5, 3] : List Int).take 2) = 5 ∧
    runLedger (-1) [5, 3] = (acceptedOf (-1) [5, 3]).foldl max (-1) := by
  have h := checkAndCommit_sequence_spec (-1) [5, 3] 1 (by decide)
  refine ⟨?_, ?_, h.2.2⟩
  · have := (h.2.1 (by decide)).1
    exact this.trans (by decide)
  · exact ((h.2.1 (by decide)).2).trans (by decide)

/-- C2: once a candidate `n` has been successfully committed, every later
`validateAndSaveNonce` call with the same candidate `n` — in any reachable
later ledger state — fails and leaves the ledger unchanged. -/
theorem checkAndCommit_no_double_accept (L n : Int) (ms : List Int)
    (hacc : (validateAndSaveNonce n L).1 = Except.ok ()) :
    validateAndSaveNonce n (runLedger (validateAndSaveNonce n L).2 ms) =
      (Except.error
        (WalletError.nonceTooLow n (runLedger (validateAndSaveNonce n L).2 ms)),
       runLedger (validateAndSaveNonce n L).2 ms) := by
  have hLn : L < n := by
    by_contra hc
    rw [validateAndSaveNonce_reject (by omega)] at hacc
    exact Except.noConfusion hacc
  have h2 : (validateAndSaveNonce n L).2 = n := by
    rw [validateAndSaveNonce_accept hLn]
  have hge : n ≤ runLedger (validateAndSaveNonce n L).2 ms := by
    rw [h2]
    exact runLedger_ge ms n
  exact validateAndSaveNonce_reject hge

/-- Witness for C2: commit 5 on a fresh ledger, then commit 7; a repeat of 5
is rejected against the reachable ledger value 7 and the ledger stays 7. -/
theorem checkAndCommit_no_double_accept_witness :
    validateAndSaveNonce 5 (runLedger (validateAndSaveNonce 5 (-1)).2 [7]) =
      (Except.error (WalletError.nonceTooLow 5 (runLedger (validateAndSaveNonce 5 (-1)).2 [7])),
       runLedger (validateAndSaveNonce 5 (-1)).2 [7]) :=
  checkAndCommit_no_double_accept (-1) 5 [7] (by decide)

end Wallet

namespace Wallet

/-! ### Ledger invariants and the `getNextNonce` overflow -/

theorem wrap64_eq_self {x : Int} (h1 : -(2 ^ 63) ≤ x) (h2 : x < 2 ^ 63) : wrap64 x = x := by
  unfold wrap64
  omega

/-- Counterexample to C10: the candidate `2^63 - 1` (`Long.MAX_VALUE`) is
committable on a fresh ledger, and in the resulting reachable state
`getNextNonce` wraps around to `-2^63`, which is negative. -/
theorem getNextNonce_overflow_at_max :
    runLedger (-1) [2 ^ 63 - 1] = 2 ^ 63 - 1 ∧
    getNextNonce (SignerState.mk (2 ^ 63 - 1) KeyStoreState.present) = -(2 ^ 63) ∧
    getNextNonce (SignerState.mk (2 ^ 63 - 1) KeyStoreState.present) < 0 := by
  refine ⟨by decide, by decide, by decide⟩

/-- C10 (amended): starting from the initial ledger value `-1`, after any
sequence of `validateAndSaveNonce` calls with 64-bit candidates the ledger
value is at least `-1`, every accepted candidate is non-negative (the core
performs no explicit non-negativity check, yet no negative nonce can ever be
committed), `getLastNonce` returns a value at least `-1`, and `getNextNonce`
returns a value at least `0` — the latter provided the ledger value is below
`2^63 - 1` (`Long.MAX_VALUE`), where the Kotlin `Long` increment would wrap
to `-2^63`. -/
theorem ledger_invariants (ns : List Int) (ks : KeyStoreState)
    (hb : ∀ n ∈ ns, -(2 ^ 63) ≤ n ∧ n < 2 ^ 63) :
    -1 ≤ runLedger (-1) ns ∧
    (∀ n ∈ acceptedOf (-1) ns, 0 ≤ n) ∧
    -1 ≤ getLastNonce (SignerState.mk (runLedger (-1) ns) ks) ∧
    (runLedger (-1) ns < 2 ^ 63 - 1 →
      0 ≤ getNextNonce (SignerState.mk (runLedger (-1) ns) ks)) := by
  have hge : (-1 : Int) ≤ runLedger (-1) ns := runLedger_ge ns (-1)
  refine ⟨hge, ?_, hge, ?_⟩
  · intro n hn
    have := acceptedOf_gt ns (-1) n hn
    omega
  · intro hlt
    have hle : runLedger (-1) ns ≤ 2 ^ 63 - 1 :=
      runLedger_le ns (-1) (2 ^ 63 - 1) (by omega) (fun n hn => by have := (hb n hn).2; omega)
    show 0 ≤ wrap64 (runLedger (-1) ns + 1)
    rw [wrap64_eq_self (by omega) (by omega)]
    omega

/-- Witness for C10 (amended) at the single-candidate sequence `[0]`. -/
theorem ledger_invariants_witness :
    -1 ≤ runLedger (-1) [0] ∧
    (∀ n ∈ acceptedOf (-1) [0], 0 ≤ n) ∧
    -1 ≤ getLastNonce (SignerState.mk (runLedger (-1) [0]) KeyStoreState.present) ∧
    (runLedger (-1) [0] < 2 ^ 63 - 1 →
      0 ≤ getNextNonce (SignerState.mk (runLedger (-1) [0]) KeyStoreState.present)) :=
  ledger_invariants [0] KeyStoreState.present (by decide)

end Wallet

namespace Wallet

/-! ### Decimal rendering of `Long` values and canonical encoding (C4) -/

theorem charOfNat_toNat {d : Nat} (h : d < 10) : (Char.ofNat (48 + d)).toNat = 48 + d := by
  interval_cases d <;> decide

theorem decodeDigits_append_singleton (ds : List Char) (c : Char) :
    decodeDigits (ds ++ [c]) = 10 * decodeDigits ds + digitVal c := by
  unfold decodeDigits
  rw [List.foldl_append]
  rfl

theorem natDigitsAux_decode : ∀ (fuel n : Nat), n < fuel →
    decodeDigits (natDigitsAux fuel n) = n
  | 0, n, h => absurd h (Nat.not_lt_zero n)
  | fuel + 1, n, h => by
    by_cases h10 : n < 10
    · simp only [natDigitsAux, if_pos h10]
      show decodeDigits ([] ++ [Char.ofNat (48 + n)]) = n
      rw [decodeDigits_append_singleton]
      unfold digitVal
      rw [charOfNat_toNat h10]
      simp [decodeDigits]
    · simp only [natDigitsAux, if_neg h10]
      rw [decodeDigits_append_singleton]
      have hfuel : n / 10 < fuel := by omega
      rw [natDigitsAux_decode fuel (n / 10) hfuel]
      unfold digitVal
      rw [charOfNat_toNat (Nat.mod_lt n (by omega))]
      omega

theorem natDigits_decode (n : Nat) : decodeDigits (natDigits n) = n :=
  natDigitsAux_decode (n + 1) n (Nat.lt_succ_self n)

theorem natDigits_inj {m n : Nat} (h : natDigits m = natDigits n) : m = n := by
  have := natDigits_decode m
  rw [h, natDigits_decode] at this
  omega

theorem natDigitsAux_all_digits : ∀ (fuel n : Nat), ∀ c ∈ natDigitsAux fuel n,
    isAsciiDigit c = true
  | 0, _, c, h => absurd h (List.not_mem_nil c)
  | fuel + 1, n, c, h => by
    by_cases h10 : n < 10
    · simp only [natDigitsAux, if_pos h10, List.mem_singleton] at h
      subst h
      unfold isAsciiDigit
      rw [charOfNat_toNat h10]
      simp
      omega
    · simp only [natDigitsAux, if_neg h10, List.mem_append, List.mem_singleton] at h
      rcases h with h | h
      · exact natDigitsAux_all_digits fuel (n / 10) c h
      · subst h
        unfold isAsciiDigit
        rw [charOfNat_toNat (Nat.mod_lt n (by omega))]
        simp
        omega

theorem natDigits_ne_nil (n : Nat) : natDigits n ≠ [] := by
  unfold natDigits natDigitsAux
  by_cases h10 : n < 10
  · rw [if_pos h10]
    simp
  · rw [if_neg h10]
    simp

theorem longToString_inj {m n : Int} (h : longToString m = longToString n) : m = n := by
  have hhead : ∀ k : Nat, ∀ c : Char, ∀ t : List Char,
      natDigits k = c :: t → isAsciiDigit c = true := by
    intro k c t hk
    exact natDigitsAux_all_digits (k + 1) k c (by rw [← natDigits] at *; rw [hk]; simp)
  unfold longToString at h
  by_cases hm : m < 0 <;> by_cases hn : n < 0
  · rw [if_pos hm, if_pos hn] at h
    have := natDigits_inj (List.cons.inj h).2
    omega
  · rw [if_pos hm, if_neg hn] at h
    rcases hd : natDigits n.toNat with _ | ⟨c, t⟩
    · exact absurd hd (natDigits_ne_nil n.toNat)
    · rw [hd] at h
      have hc : c = '-' := ((List.cons.inj h).1).symm
      have := hhead n.toNat c t hd
      subst hc
      simp [isAsciiDigit] at this
  · rw [if_neg hm, if_pos hn] at h
    rcases hd : natDigits m.toNat with _ | ⟨c, t⟩
    · exact absurd hd (natDigits_ne_nil m.toNat)
    · rw [hd] at h
      have hc : c = '-' := ((List.cons.inj h.symm).1).symm
      have := hhead m.toNat c t hd
      subst hc
      simp [isAsciiDigit] at this
  · rw [if_neg hm, if_neg hn] at h
    have := natDigits_inj h
    omega

theorem utf8Encode_append (a b : List Char) :
    utf8Encode (a ++ b) = utf8Encode a ++ utf8Encode b := by
  unfold utf8Encode
  rw [List.map_append, List.flatten_append]

theorem utf8Encode_cons_pipe (s : List Char) :
    utf8Encode ('|' :: s) = 124 :: utf8Encode s := rfl

/-- C4: the canonical transaction data is a pure deterministic function whose
UTF-8 byte encoding is exactly `utf8(amount) ++ "|" ++ utf8(currency) ++ "|"
++ utf8(decimal nonce)` (pipe byte `0x7C = 124`, base-10 nonce, no surrounding
whitespace or escaping); identical inputs yield identical bytes, and two
transactions equal except in the nonce yield different canonical bytes. -/
theorem canonical_encoding_spec (a c : List Char) (n1 n2 : Int) :
    utf8Encode (createCanonicalTransactionData a c n1) =
      utf8Encode a ++ 124 :: (utf8Encode c ++ 124 :: utf8Encode (longToString n1)) ∧
    (n1 = n2 →
      createCanonicalTransactionData a c n1 = createCanonicalTransactionData a c n2) ∧
    (n1 ≠ n2 →
      createCanonicalTransactionData a c n1 ≠ createCanonicalTransactionData a c n2) := by
  refine ⟨?_, fun h => by rw [h], fun h hc => h ?_⟩
  · unfold createCanonicalTransactionData
    rw [utf8Encode_append, utf8Encode_cons_pipe, utf8Encode_append, utf8Encode_cons_pipe]
  · unfold createCanonicalTransactionData at hc
    have h1 := List.append_cancel_left hc
    have h2 := (List.cons.inj h1).2
    have h3 := List.append_cancel_left h2
    exact longToString_inj (List.cons.inj h3).2

/-- Witness for C4 at `amount = "9.5"`, `currency = "EUR"`, nonces 0 and 1. -/
theorem canonical_encoding_spec_witness :
    utf8Encode (createCanonicalTransactionData (("9.5").data) (("EUR").data) 0) =
      utf8Encode (("9.5").data) ++
        124 :: (utf8Encode (("EUR").data) ++ 124 :: utf8Encode (longToString 0)) ∧
    createCanonicalTransactionData (("9.5").data) (("EUR").data) 0 ≠
      createCanonicalTransactionData (("9.5").data) (("EUR").data) 1 :=
  ⟨(canonical_encoding_spec (("9.5").data) (("EUR").data) 0 1).1,
   (canonical_encoding_spec (("9.5").data) (("EUR").data) 0 1).2.2 (by decide)⟩

end Wallet

namespace Wallet

/-! ### Amount validation lemmas (C3, C5, C6) -/

theorem validateAmount_error_invalid {a : List Char} {e : WalletError}
    (h : validateAmount a = Except.error e) : isInvalidTransactionError e = true := by
  unfold validateAmount at h
  repeat' split at h
  all_goals first
    | (injection h with h2; subst h2; rfl)
    | exact Except.noConfusion h

theorem signTransaction_amount_error {st : SignerState} {tx : Transaction} {e : WalletError}
    (h : validateAmount tx.amount = Except.error e) :
    signTransaction st tx = (Except.error e, st) := by
  unfold signTransaction
  rw [h]

theorem validateAmount_ok_parse {a : List Char} (h : validateAmount a = Except.ok ()) :
    ∃ d, toDoubleOrNull a = some d := by
  unfold validateAmount at h
  split at h
  · exact Except.noConfusion h
  · split at h
    · exact Except.noConfusion h
    · split at h
      · exact Except.noConfusion h
      · next d heq => exact ⟨d, heq⟩

theorem fracPart_append (pre post : List Char) (hpre : '.' ∉ pre) :
    fracPart (pre ++ '.' :: post) = some post := by
  induction pre with
  | nil => simp [fracPart]
  | cons c t ih =>
    have hc : c ≠ '.' := fun h => hpre (by simp [h])
    rw [List.cons_append]
    show (if c = '.' then some (t ++ '.' :: post) else fracPart (t ++ '.' :: post)) = some post
    rw [if_neg hc]
    exact ih (fun h => hpre (List.mem_cons_of_mem c h))

theorem utf16Len_cons (c : Char) (t : List Char) :
    utf16Len (c :: t) = utf16Width c + utf16Len t := by
  simp [utf16Len]

theorem utf16Len_of_digits {post : List Char} (h : ∀ c ∈ post, isAsciiDigit c = true) :
    utf16Len post = post.length := by
  induction post with
  | nil => rfl
  | cons c t ih =>
    have hc := h c (List.mem_cons_self c t)
    have hw : utf16Width c = 1 := by
      unfold utf16Width
      unfold isAsciiDigit at hc
      simp only [Bool.and_eq_true, decide_eq_true_eq] at hc
      rw [if_neg (by omega)]
    rw [utf16Len_cons, hw, List.length_cons, ih (fun x hx => h x (List.mem_cons_of_mem c hx))]
    omega

theorem validateAmount_ok_frac {a rest : List Char} (h : validateAmount a = Except.ok ())
    (hf : fracPart a = some rest) : utf16Len rest ≤ 18 := by
  unfold validateAmount at h
  split at h
  · exact Except.noConfusion h
  · split at h
    · exact Except.noConfusion h
    · split at h
      · exact Except.noConfusion h
      · split at h
        · exact Except.noConfusion h
        · split at h
          · next rest2 heq =>
              rw [hf] at heq
              cases Option.some.inj heq
              split at h
              · exact Except.noConfusion h
              · next hlen => omega
          · next heq => rw [hf] at heq; exact Option.noConfusion heq

/-- C3: for every structurally valid transaction whose amount passes
validation and whose nonce exceeds the current ledger value, a `sign` call
made while no signing key exists fails with `KeyNotFoundError`, yet the ledger
has already been updated to the transaction's nonce: the failed attempt
consumes the nonce without producing a signature (nonce commit happens
strictly before key access). -/
theorem nonce_committed_before_key_access (st : SignerState) (tx : Transaction)
    (hamount : validateAmount tx.amount = Except.ok ())
    (hnonce : st.lastAcceptedNonce < tx.nonce)
    (hkey : st.keyStore = KeyStoreState.absent) :
    signTransaction st tx =
      (Except.error WalletError.keyNotFound, SignerState.mk tx.nonce st.keyStore) := by
  unfold signTransaction
  rw [hamount, validateAndSaveNonce_accept hnonce, hkey]
  rfl

/-- Witness for C3: signing `{amount: "100.50", currency: "USD", nonce: 0}`
on a fresh ledger with no key fails with `KeyNotFoundError` while the ledger
becomes 0. -/
theorem nonce_committed_before_key_access_witness :
    signTransaction (SignerState.mk (-1) KeyStoreState.absent)
        (Transaction.mk (("100.50").data) (("USD").data) 0) =
      (Except.error WalletError.keyNotFound, SignerState.mk 0 KeyStoreState.absent) :=
  nonce_committed_before_key_access (SignerState.mk (-1) KeyStoreState.absent)
    (Transaction.mk (("100.50").data) (("USD").data) 0) (by decide) (by decide) rfl

end Wallet

namespace Wallet

/-! ### Validation boundary (C5) and rejection of non-positive amounts (C6) -/

/-- C5: `sign` rejects the amounts `"0"`, `"-5.00"`, `""` and any amount whose
fractional part consists of 19 digits, each with an `InvalidTransactionError`
and without touching the state; whereas signing
`{amount: "100.50", currency: "USD", nonce: 0}` succeeds (passing validation
and the nonce commit) when `lastAcceptedNonce = -1` and a signing key exists. -/
theorem validation_boundary :
    (∀ (st : SignerState) (c : List Char) (n : Int), ∃ e,
      signTransaction st (Transaction.mk (("0").data) c n) = (Except.error e, st) ∧
      isInvalidTransactionError e = true) ∧
    (∀ (st : SignerState) (c : List Char) (n : Int), ∃ e,
      signTransaction st (Transaction.mk (("-5.00").data) c n) = (Except.error e, st) ∧
      isInvalidTransactionError e = true) ∧
    (∀ (st : SignerState) (c : List Char) (n : Int), ∃ e,
      signTransaction st (Transaction.mk [] c n) = (Except.error e, st) ∧
      isInvalidTransactionError e = true) ∧
    (∀ (st : SignerState) (c : List Char) (n : Int) (a pre post : List Char),
      a = pre ++ '.' :: post → '.' ∉ pre → post.length = 19 →
      (∀ ch ∈ post, isAsciiDigit ch = true) →
      ∃ e, signTransaction st (Transaction.mk a c n) = (Except.error e, st) ∧
        isInvalidTransactionError e = true) ∧
    signTransaction (SignerState.mk (-1) KeyStoreState.present)
        (Transaction.mk (("100.50").data) (("USD").data) 0) =
      (Except.ok (("100.50|USD|0").data), SignerState.mk 0 KeyStoreState.present) := by
  have reject : ∀ (st : SignerState) (c : List Char) (n : Int) (a : List Char) (e : WalletError),
      validateAmount a = Except.error e →
      ∃ e2, signTransaction st (Transaction.mk a c n) = (Except.error e2, st) ∧
        isInvalidTransactionError e2 = true := by
    intro st c n a e he
    exact ⟨e, signTransaction_amount_error he, validateAmount_error_invalid he⟩
  refine ⟨fun st c n => reject st c n (("0").data) WalletError.amountNotPositive (by decide),
          fun st c n => reject st c n (("-5.00").data) WalletError.amountNotPositive (by decide),
          fun st c n => reject st c n [] WalletError.amountEmpty (by decide),
          ?_, by decide⟩
  intro st c n a pre post ha hpre hlen hdig
  rcases hva : validateAmount a with e | u
  case error => exact reject st c n a e hva
  case ok =>
    exfalso
    cases u
    have hf : fracPart a = some post := by rw [ha]; exact fracPart_append pre post hpre
    have hle := validateAmount_ok_frac hva hf
    rw [utf16Len_of_digits hdig] at hle
    omega

/-- Witness for C5's universally quantified parts, instantiated at a fresh
state, currency `"USD"`, nonce 0, and the 19-fractional-digit amount
`"1.0000000000000000000"`. -/
theorem validation_boundary_witness :
    (∃ e, signTransaction (SignerState.mk (-1) KeyStoreState.present)
        (Transaction.mk (("0").data) (("USD").data) 0) =
      (Except.error e, SignerState.mk (-1) KeyStoreState.present) ∧
      isInvalidTransactionError e = true) ∧
    (∃ e, signTransaction (SignerState.mk (-1) KeyStoreState.present)
        (Transaction.mk (("1.0000000000000000000").data) (("USD").data) 0) =
      (Except.error e, SignerState.mk (-1) KeyStoreState.present) ∧
      isInvalidTransactionError e = true) := by
  refine ⟨validation_boundary.1 _ _ _, ?_⟩
  exact validation_boundary.2.2.2.1 (SignerState.mk (-1) KeyStoreState.present)
    (("USD").data) 0 (("1.0000000000000000000").data) (("1").data)
    (("0000000000000000000").data) (by decide) (by decide) (by decide) (by decide)

theorem parsesNonPositive_doubleLeZero {d : ParsedDouble}
    (h : parsesNonPositive d = true) : doubleLeZero d = true := by
  cases d with
  | nan => exact absurd h (by simp [parsesNonPositive])
  | inf positive => exact h
  | dec neg m e =>
    cases neg with
    | true => simp [doubleLeZero]
    | false =>
      have hm0 : m = 0 := by simpa [parsesNonPositive] using h
      subst hm0
      simp [doubleLeZero]
  | hex neg m e =>
    cases neg with
    | true => simp [doubleLeZero]
    | false =>
      have hm0 : m = 0 := by simpa [parsesNonPositive] using h
      subst hm0
      simp [doubleLeZero]

theorem validateAmount_rejects_nonpositive {a : List Char}
    (h : toDoubleOrNull a = none ∨
         ∃ d, toDoubleOrNull a = some d ∧ parsesNonPositive d = true) :
    ∃ e, validateAmount a = Except.error e := by
  unfold validateAmount
  split
  · exact ⟨_, rfl⟩
  · split
    · exact ⟨_, rfl⟩
    · split
      · exact ⟨_, rfl⟩
      · next d heq =>
          rcases h with h | ⟨d2, hd2, hnp⟩
          · rw [h] at heq
            exact Option.noConfusion heq
          · rw [hd2] at heq
            cases Option.some.inj heq
            rw [if_pos (parsesNonPositive_doubleLeZero hnp)]
            exact ⟨_, rfl⟩

/-- C6 (amended): for every amount string that either fails to parse as a Java
floating point literal or parses to an exact value `≤ 0` (zero or negative,
including `"-Infinity"`), `sign` fails with an `InvalidTransactionError` and
never reaches the nonce commit or the key (the state is unchanged).  The
original claim's further contention that the non-finite strings `"Infinity"`
and `"NaN"` are also rejected is refuted by `infinity_amount_accepted`. -/
theorem nonpositive_amount_rejected (st : SignerState) (tx : Transaction)
    (h : toDoubleOrNull tx.amount = none ∨
         ∃ d, toDoubleOrNull tx.amount = some d ∧ parsesNonPositive d = true) :
    ∃ e, signTransaction st tx = (Except.error e, st) ∧
      isInvalidTransactionError e = true := by
  obtain ⟨e, he⟩ := validateAmount_rejects_nonpositive h
  exact ⟨e, signTransaction_amount_error he, validateAmount_error_invalid he⟩

/-- Witness for C6 (amended) at the non-numeric amount `"abc"` and the
negative amount `"-5.00"`. -/
theorem nonpositive_amount_rejected_witness :
    (∃ e, signTransaction (SignerState.mk (-1) KeyStoreState.present)
        (Transaction.mk (("abc").data) (("USD").data) 0) =
      (Except.error e, SignerState.mk (-1) KeyStoreState.present) ∧
      isInvalidTransactionError e = true) ∧
    (∃ e, signTransaction (SignerState.mk (-1) KeyStoreState.present)
        (Transaction.mk (("-5.00").data) (("USD").data) 0) =
      (Except.error e, SignerState.mk (-1) KeyStoreState.present) ∧
      isInvalidTransactionError e = true) :=
  ⟨nonpositive_amount_rejected (SignerState.mk (-1) KeyStoreState.present)
      (Transaction.mk (("abc").data) (("USD").data) 0) (Or.inl (by decide)),
   nonpositive_amount_rejected (SignerState.mk (-1) KeyStoreState.present)
      (Transaction.mk (("-5.00").data) (("USD").data) 0)
      (Or.inr ⟨ParsedDouble.dec true 500 (-2), by decide, by decide⟩)⟩

/-- Counterexample to C6 as stated: the non-finite amount strings `"Infinity"`
and `"NaN"` parse successfully under `toDoubleOrNull`, pass `validateAmount`
(`NaN <= 0` and `Infinity <= 0` are both false), and `sign` then succeeds,
reaching both the nonce commit (the ledger advances) and the key. -/
theorem infinity_amount_accepted :
    toDoubleOrNull (("Infinity").data) = some (ParsedDouble.inf true) ∧
    toDoubleOrNull (("NaN").data) = some ParsedDouble.nan ∧
    signTransaction (SignerState.mk (-1) KeyStoreState.present)
        (Transaction.mk (("Infinity").data) (("USD").data) 0) =
      (Except.ok (("Infinity|USD|0").data), SignerState.mk 0 KeyStoreState.present) ∧
    signTransaction (SignerState.mk (-1) KeyStoreState.present)
        (Transaction.mk (("NaN").data) (("USD").data) 7) =
      (Except.ok (("NaN|USD|7").data), SignerState.mk 7 KeyStoreState.present) :=
  ⟨rfl, rfl, by decide, by decide⟩

end Wallet

namespace Wallet

/-! ### Bridge-level currency validation (C7) and `keyExists` totality (C8) -/

/-- C7: for every transaction whose currency field is present but equal to the
empty string, the exposed `signTransaction` operation fails with an
invalid-input error and mutates no state — the core signer is never reached,
whatever the amount field and nonce are. -/
theorem empty_currency_rejected (st : SignerState) (amount : Option (List Char))
    (nonce : JsNumber) :
    (moduleSignTransaction st amount (some []) nonce).2 = st ∧
    ∃ e, (moduleSignTransaction st amount (some []) nonce).1 = Except.error e ∧
      isInvalidTransactionError e = true := by
  cases amount with
  | none => exact ⟨rfl, WalletError.missingAmountField, rfl, rfl⟩
  | some a =>
    cases nonce with
    | nan => exact ⟨rfl, WalletError.invalidNonceValue, rfl, rfl⟩
    | num q =>
      simp only [moduleSignTransaction]
      by_cases hq : q < 0
      · rw [if_pos hq]
        exact ⟨rfl, WalletError.invalidNonceValue, rfl, rfl⟩
      · rw [if_neg hq]
        by_cases ha : a.isEmpty
        · rw [if_pos ha]
          exact ⟨rfl, WalletError.emptyAmountInput, rfl, rfl⟩
        · rw [if_neg ha]
          exact ⟨rfl, WalletError.emptyCurrencyInput, rfl, rfl⟩

/-- C8: `keyExists` is total and never fails — it returns `false` whenever the
underlying storage query raises, and returns `true` only when the query
actually reports the alias as present. -/
theorem keyExists_never_fails (ks : KeyStoreState) :
    (∀ err, containsAlias ks = Except.error err → keyExists ks = false) ∧
    (keyExists ks = true → containsAlias ks = Except.ok true) := by
  cases ks with
  | present => exact ⟨fun err h => Except.noConfusion h, fun _ => rfl⟩
  | absent => exact ⟨fun err h => Except.noConfusion h, fun h => Bool.noConfusion h⟩
  | erroring => exact ⟨fun _ _ => rfl, fun h => Bool.noConfusion h⟩

/-- Witness for C8 at the erroring key store state. -/
theorem keyExists_never_fails_witness :
    containsAlias KeyStoreState.erroring = Except.error () ∧
    keyExists KeyStoreState.erroring = false :=
  ⟨rfl, (keyExists_never_fails KeyStoreState.erroring).1 () rfl⟩

end Wallet

namespace Wallet

/-! ### Pipe-freeness of accepted amount strings (C9)

Every string accepted by `toDoubleOrNull` is built from whitespace, signs,
digits, hex digits, the markers `. e E p P x X`, the literals `NaN` and
`Infinity`, and the suffixes `f F d D` — the character `'|'` (`0x7C`) belongs
to none of these classes, so accepted amounts never contain the canonical
delimiter. -/

theorem noPipe_nil : noPipe [] := fun c h => absurd h (List.not_mem_nil c)

theorem noPipe_append {a b : List Char} (ha : noPipe a) (hb : noPipe b) :
    noPipe (a ++ b) := by
  intro c hc
  rcases List.mem_append.mp hc with h | h
  · exact ha c h
  · exact hb c h

theorem noPipe_cons {c : Char} {t : List Char} (hc : c ≠ '|') (ht : noPipe t) :
    noPipe (c :: t) := by
  intro x hx
  rcases List.mem_cons.mp hx with h | h
  · subst h; exact hc
  · exact ht x h

theorem noPipe_tail {c : Char} {t : List Char} (h : noPipe (c :: t)) : noPipe t :=
  fun x hx => h x (List.mem_cons_of_mem c hx)

theorem ws_ne_pipe {c : Char} (h : isJavaWs c = true) : c ≠ '|' := by
  intro hc
  subst hc
  exact absurd h (by decide)

theorem digit_ne_pipe {c : Char} (h : isAsciiDigit c = true) : c ≠ '|' := by
  intro hc
  subst hc
  exact absurd h (by decide)

theorem hexDigit_ne_pipe {c : Char} (h : isHexDigitChar c = true) : c ≠ '|' := by
  intro hc
  subst hc
  exact absurd h (by decide)

theorem suffix_ne_pipe {c : Char} (h : isSuffixChar c = true) : c ≠ '|' := by
  intro hc
  subst hc
  exact absurd h (by decide)

theorem noPipe_takeWhile {p : Char → Bool} (hp : ∀ c, p c = true → c ≠ '|')
    (s : List Char) : noPipe (s.takeWhile p) :=
  fun c hc => hp c (List.mem_takeWhile_imp hc)

theorem noPipe_of_all_ws {s : List Char} (h : s.all isJavaWs = true) : noPipe s :=
  fun c hc => ws_ne_pipe (List.all_eq_true.mp h c hc)

theorem parseSign_noPipe : ∀ {s : List Char} {b : Bool} {r : List Char},
    parseSign s = (b, r) → noPipe r → noPipe s
  | [], b, r, h, _ => by
    injection h with h1 h2
    subst h2
    exact noPipe_nil
  | c :: t, b, r, h, hr => by
    simp only [parseSign] at h
    by_cases hc : c = '-'
    · rw [if_pos hc] at h
      injection h with h1 h2
      subst h2
      exact noPipe_cons (by subst hc; decide) hr
    · rw [if_neg hc] at h
      by_cases hc2 : c = '+'
      · rw [if_pos hc2] at h
        injection h with h1 h2
        subst h2
        exact noPipe_cons (by subst hc2; decide) hr
      · rw [if_neg hc2] at h
        injection h with h1 h2
        subst h2
        exact hr

theorem parseSignedInt_noPipe {s : List Char} {v : Int} {r : List Char}
    (h : parseSignedInt s = some (v, r)) (hr : noPipe r) : noPipe s := by
  unfold parseSignedInt at h
  rcases hps : parseSign s with ⟨neg, r0⟩
  simp only [hps] at h
  split at h
  · exact Option.noConfusion h
  · injection h with h1
    injection h1 with h2 h3
    subst h3
    refine parseSign_noPipe hps ?_
    rw [← List.takeWhile_append_dropWhile (p := isAsciiDigit) (l := r0)]
    exact noPipe_append (noPipe_takeWhile (fun c hc => digit_ne_pipe hc) r0) hr

theorem expOpt_noPipe {s : List Char} {v : Int} {r : List Char}
    (h : expOpt s = some (v, r)) (hr : noPipe r) : noPipe s := by
  cases s with
  | nil => exact noPipe_nil
  | cons c t =>
    by_cases hc : c = 'e' ∨ c = 'E'
    · have hce : expOpt (c :: t) = parseSignedInt t := by
        simp only [expOpt]
        rcases hc with hc | hc <;> simp [hc]
      rw [hce] at h
      refine noPipe_cons ?_ (parseSignedInt_noPipe h hr)
      rcases hc with hc | hc <;> (subst hc; decide)
    · push_neg at hc
      have hce : expOpt (c :: t) = some (0, c :: t) := by
        simp only [expOpt]
        rw [if_neg (by simp [hc.1, hc.2])]
      rw [hce] at h
      injection h with h1
      injection h1 with h2 h3
      subst h3
      exact hr

theorem matchLit_decomp : ∀ (lit s r : List Char), matchLit lit s = some r → s = lit ++ r
  | [], s, r, h => by
    injection h with h1
  | _ :: _, [], r, h => Option.noConfusion h
  | l :: ls, c :: cs, r, h => by
    unfold matchLit at h
    split at h
    · next hcl =>
        subst hcl
        rw [List.cons_append]
        rw [matchLit_decomp ls cs r h]
    · exact Option.noConfusion h

theorem suffixOpt_ws_noPipe {r : List Char} (h : (suffixOpt r).all isJavaWs = true) :
    noPipe r := by
  cases r with
  | nil => exact noPipe_nil
  | cons c r2 =>
    simp only [suffixOpt] at h
    split at h
    · next hc => exact noPipe_cons (suffix_ne_pipe hc) (noPipe_of_all_ws h)
    · exact noPipe_of_all_ws h

end Wallet

namespace Wallet

theorem parseBinExp_noPipe {s : List Char} {m shift : Nat} {b : NumBody} {r : List Char}
    (h : parseBinExp s m shift = some (b, r)) (hr : noPipe r) : noPipe s := by
  cases s with
  | nil => exact Option.noConfusion h
  | cons c t =>
    simp only [parseBinExp] at h
    split at h
    · next hc =>
        have hc2 : c = 'p' ∨ c = 'P' := by simpa using hc
        obtain ⟨⟨v, r2⟩, hmap, hf⟩ := Option.map_eq_some'.mp h
        injection hf with h2 h3
        subst h3
        refine noPipe_cons ?_ (parseSignedInt_noPipe hmap hr)
        rcases hc2 with hc2 | hc2 <;> (subst hc2; decide)
    · exact Option.noConfusion h

theorem parseDecBody_noPipe {s : List Char} {b : NumBody} {r : List Char}
    (h : parseDecBody s = some (b, r)) (hr : noPipe r) : noPipe s := by
  have hs := List.takeWhile_append_dropWhile (p := isAsciiDigit) (l := s)
  have hd1 : noPipe (s.takeWhile isAsciiDigit) :=
    noPipe_takeWhile (fun c hc => digit_ne_pipe hc) s
  simp only [parseDecBody] at h
  split at h
  · next c r2 heq =>
      split at h
      · next hc =>
          subst hc
          split at h
          · exact Option.noConfusion h
          · obtain ⟨⟨v, r4⟩, hexp, hf⟩ := Option.map_eq_some'.mp h
            injection hf with h2 h3
            subst h3
            rw [← hs, heq]
            refine noPipe_append hd1 (noPipe_cons (by decide) ?_)
            rw [← List.takeWhile_append_dropWhile (p := isAsciiDigit) (l := r2)]
            exact noPipe_append (noPipe_takeWhile (fun x hx => digit_ne_pipe hx) r2)
              (expOpt_noPipe hexp hr)
      · split at h
        · exact Option.noConfusion h
        · obtain ⟨⟨v, r4⟩, hexp, hf⟩ := Option.map_eq_some'.mp h
          injection hf with h2 h3
          subst h3
          rw [heq] at hexp
          rw [← hs, heq]
          exact noPipe_append hd1 (expOpt_noPipe hexp hr)
  · next heq =>
      split at h
      · exact Option.noConfusion h
      · obtain ⟨⟨v, r4⟩, hexp, hf⟩ := Option.map_eq_some'.mp h
        injection hf with h2 h3
        subst h3
        rw [heq] at hexp
        rw [← hs, heq]
        exact noPipe_append hd1 (expOpt_noPipe hexp hr)

theorem parseHexBody_noPipe {s : List Char} {b : NumBody} {r : List Char}
    (h : parseHexBody s = some (b, r)) (hr : noPipe r) : noPipe s := by
  have hs := List.takeWhile_append_dropWhile (p := isHexDigitChar) (l := s)
  have hh1 : noPipe (s.takeWhile isHexDigitChar) :=
    noPipe_takeWhile (fun c hc => hexDigit_ne_pipe hc) s
  simp only [parseHexBody] at h
  split at h
  · next c r2 heq =>
      split at h
      · next hc =>
          subst hc
          split at h
          · exact Option.noConfusion h
          · rw [← hs, heq]
            refine noPipe_append hh1 (noPipe_cons (by decide) ?_)
            rw [← List.takeWhile_append_dropWhile (p := isHexDigitChar) (l := r2)]
            exact noPipe_append (noPipe_takeWhile (fun x hx => hexDigit_ne_pipe hx) r2)
              (parseBinExp_noPipe h hr)
      · split at h
        · exact Option.noConfusion h
        · rw [heq] at h
          rw [← hs, heq]
          exact noPipe_append hh1 (parseBinExp_noPipe h hr)
  · next heq =>
      split at h
      · exact Option.noConfusion h
      · rw [heq] at h
        rw [← hs, heq]
        exact noPipe_append hh1 (parseBinExp_noPipe h hr)

theorem parseNumBody_noPipe {s : List Char} {b : NumBody} {r : List Char}
    (h : parseNumBody s = some (b, r)) (hr : noPipe r) : noPipe s := by
  cases s with
  | nil => exact parseDecBody_noPipe (by simpa [parseNumBody] using h) hr
  | cons c0 t0 =>
    cases t0 with
    | nil => exact parseDecBody_noPipe (by simpa [parseNumBody] using h) hr
    | cons c1 t1 =>
      simp only [parseNumBody] at h
      split at h
      · next hc =>
          have hc0 : c0 = '0' ∧ (c1 = 'x' ∨ c1 = 'X') := by simpa using hc
          refine noPipe_cons (by rw [hc0.1]; decide)
            (noPipe_cons ?_ (parseHexBody_noPipe h hr))
          rcases hc0.2 with hcx | hcx <;> (subst hcx; decide)
      · exact parseDecBody_noPipe h hr

theorem toDoubleOrNull_noPipe {s : List Char} {d : ParsedDouble}
    (h : toDoubleOrNull s = some d) : noPipe s := by
  have hs := List.takeWhile_append_dropWhile (p := isJavaWs) (l := s)
  have hws : noPipe (s.takeWhile isJavaWs) :=
    noPipe_takeWhile (fun c hc => ws_ne_pipe hc) s
  have hsign : noPipe ((parseSign (s.dropWhile isJavaWs)).2) → noPipe s := by
    intro h2
    rw [← hs]
    exact noPipe_append hws (parseSign_noPipe rfl h2)
  simp only [toDoubleOrNull] at h
  split at h
  · next r heq =>
      split at h
      · next hall =>
          refine hsign ?_
          rw [matchLit_decomp _ _ _ heq]
          exact noPipe_append (by decide) (noPipe_of_all_ws hall)
      · exact Option.noConfusion h
  · split at h
    · next r heq =>
        split at h
        · next hall =>
            refine hsign ?_
            rw [matchLit_decomp _ _ _ heq]
            exact noPipe_append (by decide) (noPipe_of_all_ws hall)
        · exact Option.noConfusion h
    · split at h
      · exact Option.noConfusion h
      · next body r heq =>
          split at h
          · next hall =>
              refine hsign ?_
              exact parseNumBody_noPipe heq (suffixOpt_ws_noPipe hall)
          · exact Option.noConfusion h

theorem validateAmount_ok_noPipe {a : List Char} (h : validateAmount a = Except.ok ()) :
    noPipe a := by
  obtain ⟨d, hd⟩ := validateAmount_ok_parse h
  exact toDoubleOrNull_noPipe hd

theorem natDigits_noPipe (k : Nat) : noPipe (natDigits k) :=
  fun c hc => digit_ne_pipe (natDigitsAux_all_digits (k + 1) k c hc)

theorem longToString_noPipe (n : Int) : noPipe (longToString n) := by
  unfold longToString
  by_cases hn : n < 0
  · rw [if_pos hn]
    exact noPipe_cons (by decide) (natDigits_noPipe _)
  · rw [if_neg hn]
    exact natDigits_noPipe _

end Wallet

namespace Wallet

theorem append_pipe_cancel : ∀ (a1 a2 t1 t2 : List Char), noPipe a1 → noPipe a2 →
    a1 ++ '|' :: t1 = a2 ++ '|' :: t2 → a1 = a2 ∧ t1 = t2
  | [], [], t1, t2, _, _, h => ⟨rfl, (List.cons.inj h).2⟩
  | [], c :: a2, t1, t2, _, h2, h => by
    rw [List.nil_append, List.cons_append] at h
    have hc := (List.cons.inj h).1
    exact absurd hc.symm (h2 c (List.mem_cons_self c a2))
  | c :: a1, [], t1, t2, h1, _, h => by
    rw [List.nil_append, List.cons_append] at h
    have hc := (List.cons.inj h).1
    exact absurd hc (h1 c (List.mem_cons_self c a1))
  | c1 :: a1, c2 :: a2, t1, t2, h1, h2, h => by
    rw [List.cons_append, List.cons_append] at h
    obtain ⟨hc, ht⟩ := List.cons.inj h
    obtain ⟨ha, ht2⟩ :=
      append_pipe_cancel a1 a2 t1 t2 (noPipe_tail h1) (noPipe_tail h2) ht
    exact ⟨by rw [hc, ha], ht2⟩

theorem noPipe_reverse {s : List Char} (h : noPipe s) : noPipe s.reverse :=
  fun c hc => h c (List.mem_reverse.mp hc)

theorem append_pipe_cancel_last (c1 c2 t1 t2 : List Char) (h1 : noPipe t1)
    (h2 : noPipe t2) (h : c1 ++ '|' :: t1 = c2 ++ '|' :: t2) : c1 = c2 ∧ t1 = t2 := by
  have hrev : t1.reverse ++ '|' :: c1.reverse = t2.reverse ++ '|' :: c2.reverse := by
    have h3 := congrArg List.reverse h
    simpa [List.reverse_append, List.append_assoc] using h3
  obtain ⟨ht, hc⟩ := append_pipe_cancel t1.reverse t2.reverse c1.reverse c2.reverse
    (noPipe_reverse h1) (noPipe_reverse h2) hrev
  exact ⟨List.reverse_injective hc, List.reverse_injective ht⟩

/-- C9 (implicit): restricted to transactions whose amounts pass validation
(hence parse as Java decimal literals and contain no `'|'`) and whose nonces
are 64-bit integers (rendered pipe-free in base 10), the canonical encoding is
injective even though no escaping of `'|'` is performed — including when the
currency string itself contains the `'|'` delimiter, because the amount is
recoverable as the prefix before the first `'|'` and the nonce as the suffix
after the last `'|'`. -/
theorem canonical_injective_for_valid_amounts (a1 c1 a2 c2 : List Char) (n1 n2 : Int)
    (hv1 : validateAmount a1 = Except.ok ()) (hv2 : validateAmount a2 = Except.ok ())
    (_hn1 : -(2 ^ 63) ≤ n1 ∧ n1 < 2 ^ 63) (_hn2 : -(2 ^ 63) ≤ n2 ∧ n2 < 2 ^ 63)
    (heq : createCanonicalTransactionData a1 c1 n1 =
           createCanonicalTransactionData a2 c2 n2) :
    a1 = a2 ∧ c1 = c2 ∧ n1 = n2 := by
  unfold createCanonicalTransactionData at heq
  obtain ⟨ha, hrest⟩ := append_pipe_cancel a1 a2 _ _
    (validateAmount_ok_noPipe hv1) (validateAmount_ok_noPipe hv2) heq
  obtain ⟨hc, hn⟩ := append_pipe_cancel_last c1 c2 _ _
    (longToString_noPipe n1) (longToString_noPipe n2) hrest
  exact ⟨ha, hc, longToString_inj hn⟩

/-- Witness for C9 at amount `"1.5"`, a currency that itself contains the
delimiter (`"E|UR"`), and nonce 3. -/
theorem canonical_injective_for_valid_amounts_witness :
    ("1.5").data = ("1.5").data ∧ ("E|UR").data = ("E|UR").data ∧ (3 : Int) = 3 :=
  canonical_injective_for_valid_amounts (("1.5").data) (("E|UR").data)
    (("1.5").data) (("E|UR").data) 3 3 (by decide) (by decide)
    (by constructor <;> decide) (by constructor <;> decide) rfl

end Wallet
